import Mathlib

/-!
Verification of the epoch-based memory-reclamation core of the
`nexus-memory` crate: the `HierarchicalEpoch` aggregation tree
(`src/epoch/hierarchical.rs`) and the epoch `Collector`
(`src/epoch/collector.rs`).  Rust `u64` values are modelled as `Nat`
with explicit reduction modulo `2 ^ 64` where the source wraps;
panics are modelled as `Option.none`.
-/

set_option maxRecDepth 100000

namespace Nexus

/-- Size of the machine-word value space for the Rust `u64` epoch counters. -/
def U64MOD : Nat := 2 ^ 64

/-- Modelled from the spec: the `INACTIVE` sentinel is defined in
`epoch/mod.rs`, which is not part of the sources; per the spec it
"equals the maximum representable value" of the 64-bit epoch counter. -/
def INACTIVE : Nat := U64MOD - 1

/-! ## Hierarchical epoch tree (`hierarchical.rs`) -/

/-- Branching factor of the epoch tree (number of children per node). -/
def BRANCHING_FACTOR : Nat := 4

/-- Maximum tree depth (supports up to `4 ^ 4 = 256` threads). -/
def MAX_DEPTH : Nat := 4

/-- State of `HierarchicalEpoch`: thread-local epochs as a flat array plus
aggregation levels, where `aggregation[0]` aggregates `local_epochs` and
`aggregation[k]` aggregates `aggregation[k-1]`. -/
structure HierarchicalEpoch where
  local_epochs : List Nat
  aggregation : List (List Nat)
  capacity : Nat
  depth : Nat
  deriving DecidableEq

namespace HierarchicalEpoch

/-- The chunk-minimum computation appearing throughout `hierarchical.rs`:
`iter().map(load).filter(|e| e != INACTIVE).min().unwrap_or(INACTIVE)`. -/
def chunkMin (xs : List Nat) : Nat :=
  ((xs.filter (fun e => e ≠ INACTIVE)).min?).getD INACTIVE

/-- Loop of `compute_depth`: `while size < capacity { depth += 1; size *= 4 }`.
The `0 < size` conjunct is needed for termination; every call site passes a
positive `size`, so it does not change the modelled behaviour. -/
def depthLoop (depth size capacity : Nat) : Nat :=
  if 0 < size ∧ size < capacity then depthLoop (depth + 1) (size * 4) capacity
  else depth
  termination_by capacity - size
  decreasing_by omega

/-- Computes the required tree depth for a given capacity
(`HierarchicalEpoch::compute_depth`). -/
def compute_depth (capacity : Nat) : Nat :=
  if capacity ≤ 1 then 1 else depthLoop 1 BRANCHING_FACTOR capacity

/-- Aggregation-level construction loop of `HierarchicalEpoch::new`:
`while level_size > 1 { level_size = (level_size + B - 1) / B; push level }`. -/
def buildLevels (level_size : Nat) : List (List Nat) :=
  if 1 < level_size then
    let next := (level_size + BRANCHING_FACTOR - 1) / BRANCHING_FACTOR
    List.replicate next INACTIVE :: buildLevels next
  else []
  termination_by level_size
  decreasing_by simp only [BRANCHING_FACTOR]; omega

/-- Creates a new hierarchical epoch manager (`HierarchicalEpoch::new`).
`none` models the two `assert!` panics (zero capacity, depth above
`MAX_DEPTH`). -/
def new (capacity : Nat) : Option HierarchicalEpoch :=
  if capacity = 0 then none
  else
    let depth := compute_depth capacity
    let actual_capacity := BRANCHING_FACTOR ^ depth
    if MAX_DEPTH < depth then none
    else some
      { local_epochs := List.replicate actual_capacity INACTIVE
        aggregation := buildLevels actual_capacity
        capacity := actual_capacity
        depth := depth }

/-- Upward propagation loop of `HierarchicalEpoch::propagate_from`: each level
recomputes the parent slot from the (already updated) level below, then
ascends.  `prev` is the level below (initially `local_epochs`). -/
def propagateLevels (idx : Nat) (prev : List Nat) :
    List (List Nat) → List (List Nat)
  | [] => []
  | lvl :: rest =>
    let parent_idx := idx / BRANCHING_FACTOR
    let m := chunkMin ((prev.drop (parent_idx * BRANCHING_FACTOR)).take BRANCHING_FACTOR)
    let lvl' := lvl.set parent_idx m
    lvl' :: propagateLevels parent_idx lvl' rest

/-- Propagates epoch updates from a leaf toward the root
(`HierarchicalEpoch::propagate_from`). -/
def propagate_from (s : HierarchicalEpoch) (thread_id : Nat) : HierarchicalEpoch :=
  if s.aggregation.isEmpty then s
  else { s with aggregation := propagateLevels thread_id s.local_epochs s.aggregation }

/-- Updates a thread's local epoch (`HierarchicalEpoch::update_local`);
`none` models the `assert!(thread_id < self.capacity)` panic.  Propagation
runs only when the swapped-out old value differs from the new one. -/
def update_local (s : HierarchicalEpoch) (thread_id epoch : Nat) :
    Option HierarchicalEpoch :=
  if thread_id < s.capacity then
    let old_epoch := s.local_epochs.getD thread_id INACTIVE
    let s1 := { s with local_epochs := s.local_epochs.set thread_id epoch }
    some (if old_epoch ≠ epoch then propagate_from s1 thread_id else s1)
  else none

/-- Returns a thread's current local epoch (`HierarchicalEpoch::local_epoch`);
`none` models the range `assert!`. -/
def local_epoch (s : HierarchicalEpoch) (thread_id : Nat) : Option Nat :=
  if thread_id < s.capacity then some (s.local_epochs.getD thread_id INACTIVE)
  else none

/-- Recomputation of one aggregation level from the level below, as done by
`HierarchicalEpoch::aggregate_all` (node `i` covers `prev[4*i .. 4*i+4]`,
capped at the end of `prev`). -/
def aggregateInto (prev lvl : List Nat) : List Nat :=
  (List.range lvl.length).map
    (fun i => chunkMin ((prev.drop (i * BRANCHING_FACTOR)).take BRANCHING_FACTOR))

/-- Level-by-level full refresh: each level is recomputed from the freshly
recomputed level below it. -/
def aggLevels (prev : List Nat) : List (List Nat) → List (List Nat)
  | [] => []
  | lvl :: rest =>
    let lvl' := aggregateInto prev lvl
    lvl' :: aggLevels lvl' rest

/-- Aggregates all nodes in the tree (`HierarchicalEpoch::aggregate_all`). -/
def aggregate_all (s : HierarchicalEpoch) : HierarchicalEpoch :=
  { s with aggregation := aggLevels s.local_epochs s.aggregation }

/-- Computes the global minimum epoch (`HierarchicalEpoch::global_minimum`):
refresh the aggregation, then read the root (or the single leaf when there
are no aggregation levels). -/
def global_minimum (s : HierarchicalEpoch) : Nat :=
  let s' := s.aggregate_all
  if s'.aggregation.isEmpty then s'.local_epochs.getD 0 INACTIVE
  else (s'.aggregation.getLast?.getD []).getD 0 INACTIVE

/-- Returns whether it is safe to reclaim objects from a given epoch
(`HierarchicalEpoch::can_reclaim`). -/
def can_reclaim (s : HierarchicalEpoch) (epoch : Nat) : Bool :=
  let min := s.global_minimum
  min ≠ INACTIVE && epoch < min

/-- Applies a sequence of `update_local` calls (sequentially, matching the
claims' quiescent, no-concurrent-updates setting). -/
def applyUpdates (s : HierarchicalEpoch) : List (Nat × Nat) → Option HierarchicalEpoch
  | [] => some s
  | (t, e) :: rest => (s.update_local t e).bind (applyUpdates · rest)

/-- Mathematical minimum of a list of epochs, with `INACTIVE` for the empty
list.  Since `INACTIVE` is the largest `u64` value, this coincides with the
filtered minimum computed by the source. -/
def fmin (xs : List Nat) : Nat := xs.foldr min INACTIVE

lemma fmin_nil : fmin [] = INACTIVE := rfl

lemma fmin_cons (x : Nat) (xs : List Nat) : fmin (x :: xs) = min x (fmin xs) := rfl

lemma fmin_le_inactive (xs : List Nat) : fmin xs ≤ INACTIVE := by
  induction xs with
  | nil => exact le_refl _
  | cons x xs ih => exact le_trans (min_le_right x (fmin xs)) ih

lemma fmin_le_mem (xs : List Nat) : ∀ y ∈ xs, fmin xs ≤ y := by
  induction xs with
  | nil => intro y hy; cases hy
  | cons x xs ih =>
    intro y hy
    rcases List.mem_cons.mp hy with h | h
    · subst h; exact min_le_left _ _
    · exact le_trans (min_le_right _ _) (ih y h)

lemma fmin_mem (xs : List Nat) (hne : xs ≠ []) (hb : ∀ x ∈ xs, x ≤ INACTIVE) :
    fmin xs ∈ xs := by
  induction xs with
  | nil => exact absurd rfl hne
  | cons x xs ih =>
    rw [fmin_cons]
    rcases eq_or_ne xs [] with h | h
    · subst h
      rw [fmin_nil, min_eq_left (hb x (List.mem_cons_self x []))]
      exact List.mem_cons_self x []
    · rcases min_cases x (fmin xs) with ⟨he, _⟩ | ⟨he, _⟩
      · rw [he]; exact List.mem_cons_self _ _
      · rw [he]
        exact List.mem_cons_of_mem x (ih h (fun y hy => hb y (List.mem_cons_of_mem x hy)))

lemma foldl_min_eq (xs : List Nat) : ∀ x : Nat, x ≤ INACTIVE →
    List.foldl min x xs = min x (fmin xs) := by
  induction xs with
  | nil => intro x hx; rw [List.foldl_nil, fmin_nil, min_eq_left hx]
  | cons y ys ih =>
    intro x hx
    rw [List.foldl_cons, ih (min x y) (le_trans (min_le_left x y) hx),
      fmin_cons, min_assoc]

lemma min?_getD_eq_fmin (xs : List Nat) (hb : ∀ x ∈ xs, x ≤ INACTIVE) :
    (xs.min?).getD INACTIVE = fmin xs := by
  cases xs with
  | nil => rfl
  | cons x xs =>
    have hx : x ≤ INACTIVE := hb x (List.mem_cons_self x xs)
    simp only [List.min?, Option.getD_some]
    rw [foldl_min_eq xs x hx, fmin_cons]

lemma fmin_filter (xs : List Nat) (hb : ∀ x ∈ xs, x ≤ INACTIVE) :
    fmin (xs.filter (fun e => e ≠ INACTIVE)) = fmin xs := by
  induction xs with
  | nil => rfl
  | cons x xs ih =>
    have hx : x ≤ INACTIVE := hb x (List.mem_cons_self x xs)
    have hb' : ∀ y ∈ xs, y ≤ INACTIVE := fun y hy => hb y (List.mem_cons_of_mem x hy)
    by_cases hcase : x = INACTIVE
    · rw [List.filter_cons, if_neg (by simp [hcase]), ih hb', fmin_cons, hcase,
        min_eq_right (fmin_le_inactive xs)]
    · rw [List.filter_cons, if_pos (by simp [hcase]), fmin_cons, fmin_cons, ih hb']

lemma chunkMin_eq_fmin (xs : List Nat) (hb : ∀ x ∈ xs, x ≤ INACTIVE) :
    chunkMin xs = fmin xs := by
  rw [chunkMin, min?_getD_eq_fmin _ (fun y hy => hb y (List.mem_of_mem_filter hy)),
    fmin_filter xs hb]

lemma chunkMin_le_inactive (xs : List Nat) (hb : ∀ x ∈ xs, x ≤ INACTIVE) :
    chunkMin xs ≤ INACTIVE := by
  rw [chunkMin_eq_fmin xs hb]; exact fmin_le_inactive xs

lemma foldr_min_init (a : List Nat) (c : Nat) (hc : c ≤ INACTIVE) :
    List.foldr min c a = min (fmin a) c := by
  induction a with
  | nil => rw [List.foldr_nil, fmin_nil, min_eq_right hc]
  | cons x a ih => rw [List.foldr_cons, ih, fmin_cons, min_assoc]

lemma fmin_append (a b : List Nat) : fmin (a ++ b) = min (fmin a) (fmin b) := by
  rw [fmin, List.foldr_append]
  exact foldr_min_init a (fmin b) (fmin_le_inactive b)

/-- Folding the per-chunk minima of consecutive 4-element chunks gives the
minimum of the whole list; this is the single aggregation step of the tree. -/
lemma fmin_chunks : ∀ (n : Nat) (prev : List Nat), prev.length ≤ 4 * n →
    (∀ x ∈ prev, x ≤ INACTIVE) →
    fmin ((List.range n).map (fun i => chunkMin ((prev.drop (i * 4)).take 4))) = fmin prev := by
  intro n
  induction n with
  | zero =>
    intro prev hlen _
    have : prev = [] := List.eq_nil_of_length_eq_zero (by omega)
    subst this; rfl
  | succ n ih =>
    intro prev hlen hb
    rw [List.range_succ_eq_map, List.map_cons, List.map_map]
    have hhead : chunkMin ((prev.drop (0 * 4)).take 4) = fmin (prev.take 4) := by
      rw [Nat.zero_mul, List.drop_zero]
      exact chunkMin_eq_fmin _ (fun y hy => hb y (List.mem_of_mem_take hy))
    have htail : List.map ((fun i => chunkMin ((prev.drop (i * 4)).take 4)) ∘ Nat.succ)
        (List.range n)
        = List.map (fun i => chunkMin (((prev.drop 4).drop (i * 4)).take 4)) (List.range n) := by
      refine List.map_congr_left (fun i _ => ?_)
      simp only [Function.comp_apply]
      rw [List.drop_drop]
      have h4 : 4 + i * 4 = Nat.succ i * 4 := by omega
      rw [h4]
    rw [hhead, htail, fmin_cons,
      ih (prev.drop 4) (by rw [List.length_drop]; omega)
        (fun y hy => hb y (List.mem_of_mem_drop hy))]
    rw [← fmin_append, List.take_append_drop]

lemma depthLoop_step {size cap : Nat} (d : Nat) (h : 0 < size ∧ size < cap) :
    depthLoop d size cap = depthLoop (d + 1) (size * 4) cap := by
  rw [depthLoop]; simp [h]

lemma depthLoop_stop {size cap : Nat} (d : Nat) (h : ¬ (0 < size ∧ size < cap)) :
    depthLoop d size cap = d := by
  rw [depthLoop]; simp only [if_neg h]

lemma buildLevels_step {n : Nat} (h : 1 < n) :
    buildLevels n = List.replicate ((n + 3) / 4) INACTIVE :: buildLevels ((n + 3) / 4) := by
  rw [buildLevels]; simp [h, BRANCHING_FACTOR]

lemma buildLevels_stop {n : Nat} (h : ¬ 1 < n) : buildLevels n = [] := by
  rw [buildLevels]; simp [h]

/-- Shape of the aggregation-level list produced by `new` for a leaf array of
length `n` and maintained by every subsequent operation: each level is a
quarter (rounded up) of the one below, and the construction stops at size 1. -/
def shapeOk : Nat → List (List Nat) → Prop
  | n, [] => n ≤ 1
  | n, lvl :: rest => 1 < n ∧ lvl.length = (n + 3) / 4 ∧ shapeOk lvl.length rest

lemma buildLevels_shape (n : Nat) : shapeOk n (buildLevels n) := by
  induction n using Nat.strong_induction_on with
  | _ n ih =>
    by_cases h : 1 < n
    · rw [buildLevels_step h]
      exact ⟨h, List.length_replicate _ _, by
        rw [List.length_replicate]
        exact ih ((n + 3) / 4) (by omega)⟩
    · rw [buildLevels_stop h]
      simp only [shapeOk]
      omega

lemma length_aggregateInto (prev lvl : List Nat) :
    (aggregateInto prev lvl).length = lvl.length := by
  simp [aggregateInto]

lemma mem_aggregateInto_le (prev lvl : List Nat) (hb : ∀ x ∈ prev, x ≤ INACTIVE) :
    ∀ y ∈ aggregateInto prev lvl, y ≤ INACTIVE := by
  intro y hy
  simp only [aggregateInto, List.mem_map] at hy
  obtain ⟨i, _, rfl⟩ := hy
  exact chunkMin_le_inactive _
    (fun z hz => hb z (List.mem_of_mem_drop (List.mem_of_mem_take hz)))

lemma fmin_aggregateInto (prev lvl : List Nat) (hlen : prev.length ≤ 4 * lvl.length)
    (hb : ∀ x ∈ prev, x ≤ INACTIVE) :
    fmin (aggregateInto prev lvl) = fmin prev := by
  have := fmin_chunks lvl.length prev hlen hb
  simpa [aggregateInto, BRANCHING_FACTOR] using this

/-- Key aggregation lemma: after a full level-by-level refresh, the root
(last) level is the singleton holding the minimum of the leaf values. -/
lemma aggLevels_root : ∀ (ls : List (List Nat)) (prev : List Nat),
    shapeOk prev.length ls → ls ≠ [] → (∀ x ∈ prev, x ≤ INACTIVE) →
    (aggLevels prev ls).getLast? = some [fmin prev] := by
  intro ls
  induction ls with
  | nil => intro prev _ hne _; exact absurd rfl hne
  | cons lvl rest ih =>
    intro prev hshape _ hb
    obtain ⟨h1, h2, h3⟩ := hshape
    cases rest with
    | nil =>
      have hl1 : lvl.length = 1 := by
        simp only [shapeOk] at h3
        omega
      have hprev4 : prev.length ≤ 4 := by omega
      show (aggregateInto prev lvl :: aggLevels (aggregateInto prev lvl) []).getLast?
          = some [fmin prev]
      have : aggregateInto prev lvl = [fmin prev] := by
        rw [aggregateInto, hl1]
        show [chunkMin ((prev.drop (0 * BRANCHING_FACTOR)).take BRANCHING_FACTOR)]
            = [fmin prev]
        rw [Nat.zero_mul, List.drop_zero,
          List.take_of_length_le (by simpa [BRANCHING_FACTOR] using hprev4),
          chunkMin_eq_fmin prev hb]
      rw [this]
      rfl
    | cons l2 rest2 =>
      have hb' : ∀ y ∈ aggregateInto prev lvl, y ≤ INACTIVE :=
        mem_aggregateInto_le prev lvl hb
      have hshape' : shapeOk (aggregateInto prev lvl).length (l2 :: rest2) := by
        rw [length_aggregateInto]; exact h3
      have hfm : fmin (aggregateInto prev lvl) = fmin prev :=
        fmin_aggregateInto prev lvl (by omega) hb
      show (aggregateInto prev lvl
          :: aggLevels (aggregateInto prev lvl) (l2 :: rest2)).getLast? = some [fmin prev]
      have hrec := ih (aggregateInto prev lvl) hshape' (by simp) hb'
      rw [← hfm]
      show (aggregateInto prev lvl
          :: aggregateInto (aggregateInto prev lvl) l2
          :: aggLevels (aggregateInto (aggregateInto prev lvl) l2) rest2).getLast?
          = some [fmin (aggregateInto prev lvl)]
      rw [List.getLast?_cons_cons]
      exact hrec

/-- Well-formedness of a `HierarchicalEpoch` state: the invariant established
by `new` and preserved by `update_local`. -/
def Wf (s : HierarchicalEpoch) : Prop :=
  s.local_epochs.length = s.capacity ∧ s.capacity = 4 ^ s.depth ∧ 1 ≤ s.depth ∧
  shapeOk s.local_epochs.length s.aggregation ∧ ∀ x ∈ s.local_epochs, x ≤ INACTIVE

/-- Under the structural invariant, `global_minimum` computes the exact
minimum of the leaf values. -/
lemma global_minimum_eq_fmin (s : HierarchicalEpoch) (hwf : Wf s) :
    s.global_minimum = fmin s.local_epochs := by
  obtain ⟨hlen, hcap, hdep, hshape, hb⟩ := hwf
  have hbig : 1 < s.local_epochs.length := by
    rw [hlen, hcap]
    calc 1 < 4 ^ 1 := by norm_num
    _ ≤ 4 ^ s.depth := Nat.pow_le_pow_right (by norm_num) hdep
  have hne : s.aggregation ≠ [] := by
    intro h
    rw [h] at hshape
    simp only [shapeOk] at hshape
    omega
  obtain ⟨lvl, rest, hls⟩ := List.exists_cons_of_ne_nil hne
  have hroot := aggLevels_root (lvl :: rest) s.local_epochs (hls ▸ hshape) (by simp) hb
  have hcons : aggLevels s.local_epochs (lvl :: rest)
      = aggregateInto s.local_epochs lvl
        :: aggLevels (aggregateInto s.local_epochs lvl) rest := rfl
  rw [global_minimum, aggregate_all]
  simp only [hls, hcons, List.isEmpty_cons, Bool.false_eq_true, if_false]
  rw [hcons] at hroot
  rw [hroot]
  rfl

lemma shapeOk_propagateLevels : ∀ (ls : List (List Nat)) (n idx : Nat) (prev : List Nat),
    shapeOk n ls → shapeOk n (propagateLevels idx prev ls) := by
  intro ls
  induction ls with
  | nil => intro n idx prev h; exact h
  | cons lvl rest ih =>
    intro n idx prev h
    obtain ⟨h1, h2, h3⟩ := h
    refine ⟨h1, by rw [List.length_set]; exact h2, ?_⟩
    rw [List.length_set]
    exact ih lvl.length _ _ h3

lemma wf_update_local (s s' : HierarchicalEpoch) (t e : Nat) (hwf : Wf s)
    (he : e ≤ INACTIVE) (hup : s.update_local t e = some s') : Wf s' := by
  obtain ⟨hlen, hcap, hdep, hshape, hb⟩ := hwf
  rw [update_local] at hup
  by_cases ht : t < s.capacity
  · rw [if_pos ht, Option.some_inj] at hup
    have hb1 : ∀ x ∈ s.local_epochs.set t e, x ≤ INACTIVE := by
      intro x hx
      rcases List.mem_or_eq_of_mem_set hx with h | h
      · exact hb x h
      · exact h ▸ he
    by_cases hne : s.local_epochs.getD t INACTIVE ≠ e
    · rw [if_pos hne] at hup
      rw [propagate_from] at hup
      by_cases hemp : (({ s with local_epochs := s.local_epochs.set t e }
          : HierarchicalEpoch).aggregation).isEmpty
      · rw [if_pos hemp] at hup
        subst hup
        exact ⟨by simpa using hlen, hcap, hdep, by simpa using hshape, hb1⟩
      · rw [if_neg hemp] at hup
        subst hup
        refine ⟨by simpa using hlen, hcap, hdep, ?_, hb1⟩
        simp only [List.length_set]
        exact shapeOk_propagateLevels _ _ _ _ hshape
    · rw [if_neg hne] at hup
      subst hup
      exact ⟨by simpa using hlen, hcap, hdep, by simpa using hshape, hb1⟩
  · rw [if_neg ht] at hup
    cases hup

lemma wf_applyUpdates : ∀ (us : List (Nat × Nat)) (s s' : HierarchicalEpoch),
    Wf s → (∀ p ∈ us, p.2 ≤ INACTIVE) → s.applyUpdates us = some s' → Wf s' := by
  intro us
  induction us with
  | nil =>
    intro s s' hwf _ h
    rw [applyUpdates, Option.some_inj] at h
    exact h ▸ hwf
  | cons p rest ih =>
    intro s s' hwf hb h
    obtain ⟨t, e⟩ := p
    rw [applyUpdates] at h
    rcases hmid : s.update_local t e with _ | smid
    · rw [hmid] at h; cases h
    · rw [hmid, Option.some_bind] at h
      exact ih smid s'
        (wf_update_local s smid t e hwf (hb (t, e) (List.mem_cons_self _ _)) hmid)
        (fun q hq => hb q (List.mem_cons_of_mem _ hq)) h

lemma depthLoop_ge (d size cap : Nat) : d ≤ depthLoop d size cap := by
  rw [depthLoop]
  split
  · exact le_trans (Nat.le_succ d) (depthLoop_ge (d + 1) (size * 4) cap)
  · exact le_refl d
  termination_by cap - size
  decreasing_by omega

/-- The `compute_depth` loop finds the least exponent whose power of four
reaches the requested capacity. -/
lemma depthLoop_spec (d cap : Nat) (h : 4 ^ d < cap) :
    cap ≤ 4 ^ depthLoop (d + 1) (4 ^ (d + 1)) cap ∧
    4 ^ (depthLoop (d + 1) (4 ^ (d + 1)) cap - 1) < cap ∧
    d + 1 ≤ depthLoop (d + 1) (4 ^ (d + 1)) cap := by
  by_cases hc : 4 ^ (d + 1) < cap
  · rw [depthLoop_step _ ⟨Nat.pos_pow_of_pos _ (by norm_num), hc⟩]
    have h4 : 4 ^ (d + 1) * 4 = 4 ^ (d + 1 + 1) := by ring
    rw [h4]
    have hrec := depthLoop_spec (d + 1) cap hc
    exact ⟨hrec.1, hrec.2.1, by omega⟩
  · rw [depthLoop_stop _ (by push_neg; intro _; omega)]
    refine ⟨by omega, ?_, le_refl _⟩
    simpa using h
  termination_by cap - 4 ^ d
  decreasing_by
    have : 4 ^ d < 4 ^ (d + 1) := Nat.pow_lt_pow_right (by norm_num) (Nat.lt_succ_self d)
    omega

lemma compute_depth_spec (cap : Nat) (h1 : 1 ≤ cap) :
    cap ≤ 4 ^ compute_depth cap ∧ 1 ≤ compute_depth cap ∧
    (compute_depth cap = 1 ∨ 4 ^ (compute_depth cap - 1) < cap) := by
  by_cases hsmall : cap ≤ 1
  · rw [compute_depth, if_pos hsmall]
    exact ⟨by omega, le_refl _, Or.inl rfl⟩
  · rw [compute_depth, if_neg hsmall]
    by_cases h4 : 4 < cap
    · have hspec := depthLoop_spec 0 cap (by norm_num; omega)
      simp only [Nat.zero_add, pow_one] at hspec
      rw [show BRANCHING_FACTOR = 4 from rfl]
      exact ⟨hspec.1, by omega, Or.inr hspec.2.1⟩
    · rw [show BRANCHING_FACTOR = 4 from rfl, depthLoop_stop _ (by omega)]
      exact ⟨by norm_num; omega, le_refl _, Or.inl rfl⟩

lemma compute_depth_le_four (cap : Nat) (h1 : 1 ≤ cap) (h2 : cap ≤ 256) :
    compute_depth cap ≤ 4 := by
  obtain ⟨hle, hge, hdisj⟩ := compute_depth_spec cap h1
  rcases hdisj with h | h
  · omega
  · by_contra hgt
    have h5 : 4 ≤ compute_depth cap - 1 := by omega
    have : (256 : Nat) ≤ 4 ^ (compute_depth cap - 1) := by
      calc (256 : Nat) = 4 ^ 4 := by norm_num
      _ ≤ 4 ^ (compute_depth cap - 1) := Nat.pow_le_pow_right (by norm_num) h5
    omega

lemma compute_depth_ge_five (cap : Nat) (h2 : 256 < cap) :
    5 ≤ compute_depth cap := by
  obtain ⟨hle, hge, _⟩ := compute_depth_spec cap (by omega)
  by_contra hlt
  have : 4 ^ compute_depth cap ≤ 4 ^ 4 :=
    Nat.pow_le_pow_right (by norm_num) (by omega)
  have h44 : (4 : Nat) ^ 4 = 256 := by norm_num
  omega

lemma wf_new (cap : Nat) (s : HierarchicalEpoch) (hnew : new cap = some s) : Wf s := by
  rw [new] at hnew
  by_cases h0 : cap = 0
  · rw [if_pos h0] at hnew; cases hnew
  · rw [if_neg h0] at hnew
    by_cases hd : MAX_DEPTH < compute_depth cap
    · simp only [if_pos hd] at hnew; cases hnew
    · simp only [if_neg hd, Option.some_inj] at hnew
      subst hnew
      refine ⟨List.length_replicate _ _, by simp [BRANCHING_FACTOR], ?_, ?_, ?_⟩
      · exact (compute_depth_spec cap (by omega)).2.1
      · rw [List.length_replicate]
        exact buildLevels_shape _
      · intro x hx
        rw [List.eq_of_mem_replicate hx]

lemma new_four : new 4 = some ⟨List.replicate 4 INACTIVE, [[INACTIVE]], 4, 1⟩ := by
  rw [new, if_neg (by norm_num)]
  have hd : compute_depth 4 = 1 := by
    rw [compute_depth, if_neg (by norm_num)]
    exact depthLoop_stop _ (by norm_num [BRANCHING_FACTOR])
  simp only [hd, BRANCHING_FACTOR, MAX_DEPTH]
  norm_num
  rw [buildLevels_step (by norm_num)]
  norm_num [buildLevels_stop, List.replicate]

lemma compute_depth_seventeen : compute_depth 17 = 3 := by
  rw [compute_depth, if_neg (by norm_num)]
  rw [show BRANCHING_FACTOR = 4 from rfl,
    depthLoop_step _ (by norm_num), depthLoop_step _ (by norm_num),
    depthLoop_stop _ (by norm_num)]

lemma new_seventeen :
    new 17 = some ⟨List.replicate 64 INACTIVE, buildLevels 64, 64, 3⟩ := by
  rw [new, if_neg (by norm_num)]
  simp only [compute_depth_seventeen, BRANCHING_FACTOR, MAX_DEPTH]
  norm_num

lemma reach_wf (cap : Nat) (us : List (Nat × Nat)) (s0 s : HierarchicalEpoch)
    (hnew : HierarchicalEpoch.new cap = some s0)
    (hrun : s0.applyUpdates us = some s)
    (hb : ∀ p ∈ us, p.2 ≤ INACTIVE) : Wf s :=
  wf_applyUpdates us s0 s (wf_new cap s0 hnew) hb hrun

/-- On a well-formed state whose leaves are all `INACTIVE`, the root query
returns `INACTIVE`. -/
lemma global_minimum_all_inactive (s : HierarchicalEpoch) (hwf : Wf s)
    (hall : ∀ x ∈ s.local_epochs, x = INACTIVE) : s.global_minimum = INACTIVE := by
  have hbnd : ∀ x ∈ s.local_epochs, x ≤ INACTIVE := hwf.2.2.2.2
  have hfil : fmin (s.local_epochs.filter (fun e => e ≠ INACTIVE)) = fmin s.local_epochs :=
    fmin_filter s.local_epochs hbnd
  have hnil : s.local_epochs.filter (fun e => e ≠ INACTIVE) = [] :=
    List.filter_eq_nil_iff.mpr (fun a ha => by simp [hall a ha])
  rw [global_minimum_eq_fmin s hwf, ← hfil, hnil, fmin_nil]

/-- C4: under the structural invariant, every state reachable from `new`
by a sequence of `update_local` calls has a correct `global_minimum`. -/
theorem C4_quiescent_global_minimum (cap : Nat) (us : List (Nat × Nat))
    (s0 s : HierarchicalEpoch)
    (hnew : HierarchicalEpoch.new cap = some s0)
    (hrun : s0.applyUpdates us = some s)
    (hb : ∀ p ∈ us, p.2 ≤ INACTIVE) :
    ((∀ x ∈ s.local_epochs, x = INACTIVE) → s.global_minimum = INACTIVE) ∧
    (s.local_epochs.filter (fun e => e ≠ INACTIVE) ≠ [] →
      s.global_minimum ∈ s.local_epochs.filter (fun e => e ≠ INACTIVE) ∧
      ∀ x ∈ s.local_epochs.filter (fun e => e ≠ INACTIVE), s.global_minimum ≤ x) := by
  have hwf : Wf s := reach_wf cap us s0 s hnew hrun hb
  have hbnd : ∀ x ∈ s.local_epochs, x ≤ INACTIVE := hwf.2.2.2.2
  have hgm : s.global_minimum = fmin s.local_epochs := global_minimum_eq_fmin s hwf
  have hfil : fmin (s.local_epochs.filter (fun e => e ≠ INACTIVE)) = fmin s.local_epochs :=
    fmin_filter s.local_epochs hbnd
  constructor
  · intro hall
    exact global_minimum_all_inactive s hwf hall
  · intro hne
    have hbf : ∀ x ∈ s.local_epochs.filter (fun e => e ≠ INACTIVE), x ≤ INACTIVE :=
      fun x hx => hbnd x (List.mem_of_mem_filter hx)
    refine ⟨?_, ?_⟩
    · rw [hgm, ← hfil]
      exact fmin_mem _ hne hbf
    · intro x hx
      rw [hgm, ← hfil]
      exact fmin_le_mem _ x hx

/-- Witness for C4 at the concrete tree of capacity 4 after the updates
`(0, 5)` and `(2, 3)`: the computed global minimum is an actual minimum of
the non-INACTIVE leaves. -/
theorem C4_quiescent_global_minimum_witness :
    (⟨[5, INACTIVE, 3, INACTIVE], [[3]], 4, 1⟩ : HierarchicalEpoch).global_minimum
      ∈ [5, INACTIVE, 3, INACTIVE].filter (fun e => e ≠ INACTIVE) ∧
    ∀ x ∈ [5, INACTIVE, 3, INACTIVE].filter (fun e => e ≠ INACTIVE),
      (⟨[5, INACTIVE, 3, INACTIVE], [[3]], 4, 1⟩ : HierarchicalEpoch).global_minimum ≤ x :=
  (C4_quiescent_global_minimum 4 [(0, 5), (2, 3)] _ _ new_four (by decide) (by decide)).2
    (by decide)

/-- C9: `can_reclaim e` holds exactly when the global minimum is not
`INACTIVE` and exceeds `e`; in particular it is `false` whenever every
leaf is `INACTIVE`. -/
theorem C9_can_reclaim_iff (cap : Nat) (us : List (Nat × Nat))
    (s0 s : HierarchicalEpoch) (e : Nat)
    (hnew : HierarchicalEpoch.new cap = some s0)
    (hrun : s0.applyUpdates us = some s)
    (hb : ∀ p ∈ us, p.2 ≤ INACTIVE) :
    (s.can_reclaim e = true ↔ (s.global_minimum ≠ INACTIVE ∧ e < s.global_minimum)) ∧
    ((∀ x ∈ s.local_epochs, x = INACTIVE) → s.can_reclaim e = false) := by
  constructor
  · simp [can_reclaim]
  · intro hall
    have hgm : s.global_minimum = INACTIVE :=
      global_minimum_all_inactive s (reach_wf cap us s0 s hnew hrun hb) hall
    simp [can_reclaim, hgm]

/-- Witness for C9 on the freshly constructed capacity-4 tree (all leaves
`INACTIVE`): no epoch is reclaimable. -/
theorem C9_can_reclaim_iff_witness :
    (⟨List.replicate 4 INACTIVE, [[INACTIVE]], 4, 1⟩ : HierarchicalEpoch).can_reclaim 0
      = false :=
  (C9_can_reclaim_iff 4 [] _ _ 0 new_four rfl (by decide)).2 (by decide)

/-- C10: `update_local t e` does not change any other thread's local epoch,
and when `e` equals the leaf's current value it performs no propagation,
leaving every aggregation node unchanged. -/
theorem C10_update_local_frame (s : HierarchicalEpoch) (t t' e : Nat)
    (ht : t < s.capacity) (ht' : t' < s.capacity) (hne : t ≠ t') :
    (∀ s', s.update_local t e = some s' → s'.local_epoch t' = s.local_epoch t') ∧
    (s.local_epochs.getD t INACTIVE = e →
      ∀ s', s.update_local t e = some s' → s'.aggregation = s.aggregation) := by
  constructor
  · intro s' h
    rw [update_local, if_pos ht, Option.some_inj] at h
    have hleaves : s'.local_epochs = s.local_epochs.set t e := by
      rw [← h]
      by_cases hc : s.local_epochs.getD t INACTIVE ≠ e
      · rw [if_pos hc, propagate_from]
        by_cases hemp : (({ s with local_epochs := s.local_epochs.set t e }
            : HierarchicalEpoch).aggregation).isEmpty
        · rw [if_pos hemp]
        · rw [if_neg hemp]
      · rw [if_neg hc]
    have hcap : s'.capacity = s.capacity := by
      rw [← h]
      by_cases hc : s.local_epochs.getD t INACTIVE ≠ e
      · rw [if_pos hc, propagate_from]
        by_cases hemp : (({ s with local_epochs := s.local_epochs.set t e }
            : HierarchicalEpoch).aggregation).isEmpty
        · rw [if_pos hemp]
        · rw [if_neg hemp]
      · rw [if_neg hc]
    rw [local_epoch, local_epoch, if_pos (by rw [hcap]; exact ht'), if_pos ht', hleaves,
      List.getD_eq_getElem?_getD, List.getElem?_set_ne hne, ← List.getD_eq_getElem?_getD]
  · intro heq s' h
    rw [update_local, if_pos ht] at h
    simp only [heq, ne_eq, not_true_eq_false, if_false, Option.some_inj] at h
    rw [← h]

/-- Witness for C10 on the capacity-4 tree `⟨[5, INACTIVE, 3, INACTIVE], [[3]], 4, 1⟩`:
updating thread 1 leaves thread 0's epoch unchanged, and re-storing thread 2's
current epoch leaves the aggregation untouched. -/
theorem C10_update_local_frame_witness :
    (⟨[5, 7, 3, INACTIVE], [[3]], 4, 1⟩ : HierarchicalEpoch).local_epoch 0
      = (⟨[5, INACTIVE, 3, INACTIVE], [[3]], 4, 1⟩ : HierarchicalEpoch).local_epoch 0 ∧
    (⟨[5, INACTIVE, 3, INACTIVE], [[3]], 4, 1⟩ : HierarchicalEpoch).aggregation
      = (⟨[5, INACTIVE, 3, INACTIVE], [[3]], 4, 1⟩ : HierarchicalEpoch).aggregation :=
  ⟨(C10_update_local_frame ⟨[5, INACTIVE, 3, INACTIVE], [[3]], 4, 1⟩ 1 0 7
      (by decide) (by decide) (by decide)).1 _ (by decide),
   (C10_update_local_frame ⟨[5, INACTIVE, 3, INACTIVE], [[3]], 4, 1⟩ 2 0 3
      (by decide) (by decide) (by decide)).2 (by decide) _ (by decide)⟩

/-- Spec-side definition, following the spec's words: "rounds the requested
capacity up to the next power of the branching factor 4" is the power of
four with exponent `⌈log₄ capacity⌉`. -/
def specNextPow4 (requested : Nat) : Nat :=
  BRANCHING_FACTOR ^ Nat.clog BRANCHING_FACTOR requested

/-- C7 counterexample: for requested capacity 1 the next power of four is
`4 ^ 0 = 1`, but `new 1` produces capacity 4, so the claim as stated fails
at input 1. -/
theorem C7_capacity_rounding_counterexample :
    ¬ ((HierarchicalEpoch.new 1).map HierarchicalEpoch.capacity
        = some (specNextPow4 1)) := by
  have h1 : specNextPow4 1 = 1 := by
    rw [specNextPow4, Nat.clog_one_right]
    rfl
  have hd : compute_depth 1 = 1 := by rw [compute_depth, if_pos (by norm_num)]
  have h2 : (new 1).map capacity = some 4 := by
    rw [new, if_neg (by norm_num)]
    simp only [hd, BRANCHING_FACTOR, MAX_DEPTH]
    norm_num
  rw [h1, h2]
  simp

/-- C7 (amended): `new` yields the smallest power of four that is at least
the requested capacity and at least 4 (so `new 17` has capacity 64 and
depth 3), and construction fails for capacity 0 and for any capacity above
`4 ^ MAX_DEPTH = 256`. -/
theorem C7_capacity_rounding :
    ((new 17).map capacity = some 64 ∧ (new 17).map depth = some 3) ∧
    new 0 = none ∧
    (∀ cap, 256 < cap → new cap = none) ∧
    (∀ cap, 1 ≤ cap → cap ≤ 256 → ∃ s, new cap = some s ∧
      s.capacity = 4 ^ s.depth ∧ 1 ≤ s.depth ∧ cap ≤ s.capacity ∧
      (s.depth = 1 ∨ 4 ^ (s.depth - 1) < cap) ∧ s.depth ≤ 4) := by
  refine ⟨⟨by rw [new_seventeen]; rfl, by rw [new_seventeen]; rfl⟩, ?_, ?_, ?_⟩
  · rw [new, if_pos rfl]
  · intro cap hcap
    rw [new, if_neg (by omega)]
    rw [if_pos]
    show MAX_DEPTH < compute_depth cap
    have := compute_depth_ge_five cap hcap
    rw [show MAX_DEPTH = 4 from rfl]
    omega
  · intro cap h1 h2
    obtain ⟨hle, hge, hdisj⟩ := compute_depth_spec cap h1
    have hd4 : compute_depth cap ≤ 4 := compute_depth_le_four cap h1 h2
    rw [new, if_neg (by omega)]
    rw [if_neg (by rw [show MAX_DEPTH = 4 from rfl]; omega)]
    refine ⟨_, rfl, ?_, hge, ?_, hdisj, hd4⟩
    · rfl
    · show cap ≤ BRANCHING_FACTOR ^ compute_depth cap
      exact hle

/-- Witness for C7: a capacity above the ceiling is rejected, and requested
capacity 64 is accepted with the stated rounding facts. -/
theorem C7_capacity_rounding_witness :
    new 300 = none ∧
    (∃ s, new 64 = some s ∧ s.capacity = 4 ^ s.depth ∧ 1 ≤ s.depth ∧
      64 ≤ s.capacity ∧ (s.depth = 1 ∨ 4 ^ (s.depth - 1) < 64) ∧ s.depth ≤ 4) :=
  ⟨C7_capacity_rounding.2.2.1 300 (by norm_num),
   C7_capacity_rounding.2.2.2 64 (by norm_num) (by norm_num)⟩

end HierarchicalEpoch

/-! ## Collector (`collector.rs`) -/

/-- Maximum number of participants (threads) supported. -/
def MAX_PARTICIPANTS : Nat := 256

/-- Operations between garbage collection attempts. -/
def GC_FREQUENCY : Nat := 128

/-- A participant slot: last observed epoch, the `in_use` flag (`active`),
and the nested-pin counter.  The per-slot local garbage bag is never used by
the operations under study and is omitted. -/
structure Participant where
  epoch : Nat
  active : Nat
  pin_count : Nat
  deriving DecidableEq

/-- Initial slot contents, from `Participant::default()`. -/
def Participant.init : Participant :=
  { epoch := INACTIVE, active := 0, pin_count := 0 }

/-- State of the `Collector`.  Garbage bags hold retirement identifiers;
`executed` is the list of retirements whose destructor has run (in order),
modelling the observable effect of `GarbageBag::collect`.  `tcache` models
the thread-local `PARTICIPANT_IDX` cache as a thread-id ↦ slot map. -/
structure Collector where
  global_epoch : Nat
  participants : List Participant
  num_participants : Nat
  garbage : List (List Nat)
  ops_since_gc : Nat
  executed : List Nat
  tcache : List (Nat × Nat)
  deriving DecidableEq

/-- Creates a new collector (`Collector::new`). -/
def Collector.new : Collector :=
  { global_epoch := 0
    participants := List.replicate MAX_PARTICIPANTS Participant.init
    num_participants := 0
    garbage := [[], [], [], []]
    ops_since_gc := 0
    executed := []
    tcache := [] }

/-- Sequential compare-and-set on the global epoch: succeeds exactly when
the stored value equals `expected`. -/
def casGlobal (expected newval : Nat) (s : Collector) : Bool × Collector :=
  if s.global_epoch = expected then (true, { s with global_epoch := newval })
  else (false, s)

/-- The per-participant test of the `try_advance` scan: a slot blocks
advancement when it is in use, not `INACTIVE`, and behind the current
epoch. -/
def blocksAdvance (current : Nat) (p : Participant) : Bool :=
  decide (p.active ≠ 0) && decide (p.epoch ≠ INACTIVE) && decide (p.epoch < current)

/-- Attempts to advance the global epoch (`Collector::try_advance`): scan
all participants; refuse if any blocks; otherwise one compare-and-set of
`current` to `current.wrapping_add(1)`, with no retry. -/
def Collector.try_advance (s : Collector) : Bool × Collector :=
  if s.participants.any (blocksAdvance s.global_epoch) then (false, s)
  else casGlobal s.global_epoch ((s.global_epoch + 1) % U64MOD) s

/-- Tries to advance the epoch and collect garbage
(`Collector::try_advance_and_collect`).  On a successful advance to an
epoch `≥ 2`, the bag at index `(epoch − 2) % 4` is drained.  Draining is
modelled from the spec contract of `GarbageBag::collect` (the bag source is
not under `src/`): run every retirement's destructor once in insertion
order, then clear the bag. -/
def Collector.try_advance_and_collect (s : Collector) : Collector :=
  let r := s.try_advance
  if r.1 then
    if 2 ≤ r.2.global_epoch then
      let old_epoch := (r.2.global_epoch - 2) % 4
      let bag := r.2.garbage.getD old_epoch []
      { r.2 with garbage := r.2.garbage.set old_epoch [], executed := r.2.executed ++ bag }
    else r.2
  else r.2

/-- Defers destruction of an object (`Collector::defer`): append the
retirement to the bag of the current global epoch, index `epoch % 4`. -/
def Collector.defer (s : Collector) (rid : Nat) : Collector :=
  let bag_idx := s.global_epoch % 4
  let bag := s.garbage.getD bag_idx []
  { s with garbage := s.garbage.set bag_idx (bag ++ [rid]) }

/-- The linear scan of `allocate_participant`: the relative index of the
first slot whose `active` flag is 0, with `i` the index of the head. -/
def allocScan : List Participant → Nat → Option Nat
  | [], _ => none
  | p :: ps, i => if p.active = 0 then some i else allocScan ps (i + 1)

/-- Allocates a new participant slot (`Collector::allocate_participant`):
claim the first free slot (`active` 0 → 1); `none` models the
`panic!` when every slot is taken. -/
def Collector.allocate_participant (s : Collector) : Option (Nat × Collector) :=
  match allocScan s.participants 0 with
  | some idx =>
    let p := s.participants.getD idx Participant.init
    let parts := s.participants.set idx { p with active := 1 }
    some (idx, { s with participants := parts, num_participants := s.num_participants + 1 })
  | none => none

/-- Gets or creates the participant slot for a thread
(`Collector::get_or_create_participant`): consult the thread-local cache,
allocating and caching a slot on the first call. -/
def Collector.get_or_create_participant (s : Collector) (tid : Nat) :
    Option (Nat × Collector) :=
  match s.tcache.lookup tid with
  | some idx => some (idx, s)
  | none =>
    (s.allocate_participant).map
      (fun r => (r.1, { r.2 with tcache := (tid, r.1) :: r.2.tcache }))

/-- Pins a thread (`Collector::pin`): obtain the slot, store the current
global epoch into it, bump `pin_count`, bump the operation counter, and
when its pre-increment value is divisible by `GC_FREQUENCY` run
`try_advance_and_collect`.  Returns the guard's slot index. -/
def Collector.pin (s : Collector) (tid : Nat) : Option (Nat × Collector) :=
  (s.get_or_create_participant tid).map (fun r =>
    let idx := r.1
    let s1 := r.2
    let p := s1.participants.getD idx Participant.init
    let p' := { p with epoch := s1.global_epoch, pin_count := p.pin_count + 1 }
    let s2 := { s1 with participants := s1.participants.set idx p' }
    let ops := s2.ops_since_gc
    let s3 := { s2 with ops_since_gc := (ops + 1) % U64MOD }
    (idx, if ops % GC_FREQUENCY = 0 then s3.try_advance_and_collect else s3))

/-- Modelled from the spec: `Guard` disposal (the guard source is not under
`src/`).  Spec section 4.4: decrement `pin_depth`; if it reaches 0, store
`INACTIVE` into `observed_epoch`; otherwise do nothing. -/
def Collector.dispose (s : Collector) (idx : Nat) : Collector :=
  let p := s.participants.getD idx Participant.init
  let p' := if p.pin_count - 1 = 0
    then { p with pin_count := 0, epoch := INACTIVE }
    else { p with pin_count := p.pin_count - 1 }
  { s with participants := s.participants.set idx p' }

/-- One collector operation, for quantifying over operation sequences. -/
inductive Op where
  | pinOp (tid : Nat)
  | disposeOp (idx : Nat)
  | deferOp (rid : Nat)
  | advanceOp
  | collectOp
  deriving DecidableEq

/-- Applies one operation; `none` models a panic (slot exhaustion). -/
def stepOp (s : Collector) : Op → Option Collector
  | .pinOp tid => (s.pin tid).map (fun r => r.2)
  | .disposeOp idx => some (s.dispose idx)
  | .deferOp rid => some (s.defer rid)
  | .advanceOp => some (s.try_advance).2
  | .collectOp => some s.try_advance_and_collect

/-- Applies a sequence of collector operations. -/
def runOps (s : Collector) : List Op → Option Collector
  | [] => some s
  | op :: rest => (stepOp s op).bind (fun s' => runOps s' rest)

/-! ### Concrete scenario traces -/

/-- Scenario state after thread A's first `pin` on a fresh collector (the
`getD` default is never used: the pin succeeds). -/
def s3_afterPin : Collector := ((Collector.new.pin 0).getD (0, Collector.new)).2

/-- Scenario state after thread A defers retirement 7. -/
def s3_afterDefer : Collector := s3_afterPin.defer 7

/-- Scenario state after thread A disposes its guard. -/
def s3_afterDispose : Collector := s3_afterDefer.dispose 0

/-- Scenario state after the first explicit `try_advance_and_collect`. -/
def s3_tac1 : Collector := s3_afterDispose.try_advance_and_collect

/-- Scenario state after the second explicit `try_advance_and_collect`. -/
def s3_tac2 : Collector := s3_tac1.try_advance_and_collect

/-- Scenario state after thread A pins a second time (nested pin) while its
first guard is still live. -/
def c3_nested : Collector := ((s3_afterPin.pin 0).getD (0, s3_afterPin)).2

/-- C1 counterexample: in the S3 trace, the first explicit
`try_advance_and_collect` moves the epoch to 2, not 1 (the very first `pin`
already advanced it 0 → 1, because the operation counter's pre-increment
value 0 satisfies `0 % GC_FREQUENCY == 0`), and the retirement was placed
in bag 1, never in bag 0. -/
theorem C1_two_epoch_grace_counterexample :
    (s3_tac1.global_epoch = 2 ∧ ¬ s3_tac1.global_epoch = 1) ∧
    s3_afterDefer.garbage.getD 0 [] = [] ∧
    s3_afterDefer.garbage.getD 1 [] = [7] := by decide

/-- C1 (amended): thread A's first `pin` itself triggers a GC attempt,
advancing the epoch 0 → 1 while A's observed epoch stays 0; the retirement
is deferred at global epoch 1 into bag 1; after the first explicit
`try_advance_and_collect` (1 → 2) the destructor has not run; after the
second (2 → 3) bag 1 is drained and the destructor has run exactly once. -/
theorem C1_two_epoch_grace :
    s3_afterPin.global_epoch = 1 ∧
    (s3_afterPin.participants.getD 0 Participant.init).epoch = 0 ∧
    s3_afterDefer.garbage.getD 1 [] = [7] ∧
    s3_tac1.global_epoch = 2 ∧ s3_tac1.executed = [] ∧
    s3_tac2.global_epoch = 3 ∧ s3_tac2.garbage.getD 1 [] = [] ∧
    s3_tac2.executed.count 7 = 1 := by decide

/-- C3 (code bug): the outermost guard recorded epoch 0, but after a nested
pin (`pin_count` 2, two live guards) the slot's observed epoch has been
overwritten with the re-read global epoch 1 — `pin` stores the freshly
loaded global epoch unconditionally instead of only when `pin_count`
becomes 1. -/
theorem C3_reentrant_pin_rereads :
    (s3_afterPin.participants.getD 0 Participant.init).epoch = 0 ∧
    (s3_afterPin.participants.getD 0 Participant.init).pin_count = 1 ∧
    (c3_nested.participants.getD 0 Participant.init).pin_count = 2 ∧
    (c3_nested.participants.getD 0 Participant.init).epoch = 1 := by decide

/-- C2: `try_advance` refuses (returning `false` with the state unchanged)
exactly when some in-use slot lags behind the current epoch, and otherwise
performs the single compare-and-set `e → e + 1`, which in this sequential
model always succeeds. -/
theorem C2_try_advance_cases (s : Collector)
    (h01 : ∀ p ∈ s.participants, p.active ≤ 1) :
    ((∃ p ∈ s.participants, p.active = 1 ∧ p.epoch ≠ INACTIVE ∧
        p.epoch < s.global_epoch) →
      s.try_advance = (false, s)) ∧
    ((∀ p ∈ s.participants, p.active = 1 → p.epoch ≠ INACTIVE →
        s.global_epoch ≤ p.epoch) →
      s.try_advance = (true, { s with global_epoch := (s.global_epoch + 1) % U64MOD })) := by
  constructor
  · rintro ⟨p, hp, ha, hi, hlt⟩
    have hany : s.participants.any (blocksAdvance s.global_epoch) = true :=
      List.any_eq_true.mpr ⟨p, hp, by simp [blocksAdvance, ha, hi, hlt]⟩
    rw [Collector.try_advance, if_pos hany]
  · intro hall
    have hany : s.participants.any (blocksAdvance s.global_epoch) = false := by
      rw [List.any_eq_false]
      intro p hp
      simp only [blocksAdvance, Bool.and_eq_true, decide_eq_true_eq, not_and]
      rintro ⟨ha, hi⟩
      have h1 : p.active = 1 := by have := h01 p hp; omega
      have := hall p hp h1 hi
      omega
    rw [Collector.try_advance, if_neg (by simp [hany]), casGlobal, if_pos rfl]

/-- Blocked collector used by the C2 witness: slot 0 is in use at epoch 0
while the global epoch is 1. -/
def c2_blocked : Collector :=
  { Collector.new with
    global_epoch := 1
    participants := ⟨0, 1, 1⟩ :: List.replicate 255 Participant.init }

/-- Witness for C2: the blocked state refuses, and the fresh collector
advances via the compare-and-set. -/
theorem C2_try_advance_cases_witness :
    c2_blocked.try_advance = (false, c2_blocked) ∧
    Collector.new.try_advance
      = (true, { Collector.new with
          global_epoch := (Collector.new.global_epoch + 1) % U64MOD }) :=
  ⟨(C2_try_advance_cases c2_blocked (by decide)).1 (by decide),
   (C2_try_advance_cases Collector.new (by decide)).2 (by decide)⟩

lemma allocScan_none : ∀ (ps : List Participant) (k : Nat),
    allocScan ps k = none ↔ ∀ p ∈ ps, p.active ≠ 0 := by
  intro ps
  induction ps with
  | nil => intro k; simp [allocScan]
  | cons p ps ih =>
    intro k
    rw [allocScan]
    by_cases hp : p.active = 0
    · simp only [if_pos hp]
      constructor
      · intro h; cases h
      · intro h
        exact absurd hp (h p (List.mem_cons_self _ _))
    · simp only [if_neg hp, ih (k + 1)]
      constructor
      · intro h q hq
        rcases List.mem_cons.mp hq with rfl | hq'
        · exact hp
        · exact h q hq'
      · intro h q hq
        exact h q (List.mem_cons_of_mem _ hq)

lemma allocScan_some : ∀ (ps : List Participant) (k i : Nat), allocScan ps k = some i →
    k ≤ i ∧ i - k < ps.length ∧ (ps.getD (i - k) Participant.init).active = 0 ∧
    ∀ j < i - k, (ps.getD j Participant.init).active ≠ 0 := by
  intro ps
  induction ps with
  | nil => intro k i h; cases h
  | cons p ps ih =>
    intro k i h
    rw [allocScan] at h
    by_cases hp : p.active = 0
    · rw [if_pos hp, Option.some_inj] at h
      subst h
      refine ⟨le_refl _, by simp, ?_, ?_⟩
      · simpa using hp
      · intro j hj; omega
    · rw [if_neg hp] at h
      obtain ⟨h1, h2, h3, h4⟩ := ih (k + 1) i h
      have hik : i - k = (i - (k + 1)) + 1 := by omega
      refine ⟨by omega, by simp [List.length_cons]; omega, ?_, ?_⟩
      · rw [hik, List.getD_cons_succ]
        exact h3
      · intro j hj
        cases j with
        | zero => simpa using hp
        | succ j' =>
          rw [List.getD_cons_succ]
          exact h4 j' (by omega)

/-- C8: `allocate_participant` claims the smallest-index free slot, setting
its `in_use` flag; when every slot is in use, allocation and (for an
uncached thread) `pin` fail fatally, modelled as `none`. -/
theorem C8_slot_allocation (s : Collector) :
    (∀ i s', s.allocate_participant = some (i, s') →
      i < s.participants.length ∧
      (s.participants.getD i Participant.init).active = 0 ∧
      (∀ j < i, (s.participants.getD j Participant.init).active ≠ 0) ∧
      s'.participants = s.participants.set i
        { s.participants.getD i Participant.init with active := 1 } ∧
      s'.num_participants = s.num_participants + 1) ∧
    ((∀ p ∈ s.participants, p.active ≠ 0) →
      s.allocate_participant = none ∧
      ∀ tid, s.tcache.lookup tid = none → s.pin tid = none) := by
  constructor
  · intro i s' h
    rw [Collector.allocate_participant] at h
    rcases hscan : allocScan s.participants 0 with _ | idx
    · rw [hscan] at h; cases h
    · rw [hscan] at h
      rw [Option.some_inj, Prod.mk.injEq] at h
      obtain ⟨hidx, hupd⟩ := h
      subst hidx
      subst hupd
      obtain ⟨_, h2, h3, h4⟩ := allocScan_some s.participants 0 idx hscan
      rw [Nat.sub_zero] at h2 h3 h4
      exact ⟨h2, h3, h4, rfl, rfl⟩
  · intro hfull
    have hnone : s.allocate_participant = none := by
      rw [Collector.allocate_participant, (allocScan_none s.participants 0).mpr hfull]
    refine ⟨hnone, ?_⟩
    intro tid hlk
    rw [Collector.pin, Collector.get_or_create_participant, hlk, hnone]
    rfl

/-- Fully occupied collector used by the C8 witness. -/
def c8_full : Collector :=
  { Collector.new with participants := List.replicate 256 ⟨INACTIVE, 1, 0⟩ }

/-- Collector state after the C8 witness allocation. -/
def c8_alloc : Collector :=
  { Collector.new with
    participants := Collector.new.participants.set 0
      { Collector.new.participants.getD 0 Participant.init with active := 1 },
    num_participants := Collector.new.num_participants + 1 }

/-- Witness for C8: on a fresh collector the scan claims slot 0; on a fully
occupied collector allocation and pin fail. -/
theorem C8_slot_allocation_witness :
    (0 < Collector.new.participants.length ∧
      (Collector.new.participants.getD 0 Participant.init).active = 0 ∧
      (∀ j < 0, (Collector.new.participants.getD j Participant.init).active ≠ 0) ∧
      c8_alloc.participants = Collector.new.participants.set 0
        { Collector.new.participants.getD 0 Participant.init with active := 1 } ∧
      c8_alloc.num_participants = Collector.new.num_participants + 1) ∧
    (c8_full.allocate_participant = none ∧ c8_full.pin 5 = none) := by
  refine ⟨(C8_slot_allocation Collector.new).1 0 c8_alloc (by decide), ?_, ?_⟩
  · exact ((C8_slot_allocation c8_full).2 (by decide)).1
  · exact ((C8_slot_allocation c8_full).2 (by decide)).2 5 (by decide)

/-- C6 (scenario S1): on a fresh collector, four consecutive `try_advance`
calls all return `true` and the epoch afterwards equals 4. -/
theorem C6_four_advances :
    (Collector.new.try_advance).1 = true ∧
    ((Collector.new.try_advance).2.try_advance).1 = true ∧
    (((Collector.new.try_advance).2.try_advance).2.try_advance).1 = true ∧
    ((((Collector.new.try_advance).2.try_advance).2.try_advance).2.try_advance).1 = true ∧
    ((((Collector.new.try_advance).2.try_advance).2.try_advance).2.try_advance).2.global_epoch
      = 4 := by decide

lemma casGlobal_epoch (e n : Nat) (s : Collector) :
    ((casGlobal e n s).2).global_epoch = s.global_epoch ∨
    ((casGlobal e n s).2).global_epoch = n := by
  by_cases h : s.global_epoch = e
  · right; simp [casGlobal, h]
  · left; simp [casGlobal, h]

lemma try_advance_epoch (s : Collector) :
    ((s.try_advance).2).global_epoch = s.global_epoch ∨
    ((s.try_advance).2).global_epoch = (s.global_epoch + 1) % U64MOD := by
  rw [Collector.try_advance]
  split
  · left; rfl
  · exact casGlobal_epoch _ _ s

lemma tac_epoch (s : Collector) :
    (s.try_advance_and_collect).global_epoch = s.global_epoch ∨
    (s.try_advance_and_collect).global_epoch = (s.global_epoch + 1) % U64MOD := by
  have hglob := try_advance_epoch s
  rw [Collector.try_advance_and_collect]
  rcases htr : s.try_advance with ⟨ok, s2⟩
  rw [htr] at hglob
  cases ok
  · simpa using hglob
  · by_cases h2 : 2 ≤ s2.global_epoch
    · simpa [h2] using hglob
    · simpa [h2] using hglob

lemma allocate_epoch (s : Collector) (r : Nat × Collector)
    (h : s.allocate_participant = some r) : r.2.global_epoch = s.global_epoch := by
  rw [Collector.allocate_participant] at h
  rcases hscan : allocScan s.participants 0 with _ | idx
  · rw [hscan] at h; cases h
  · rw [hscan, Option.some_inj] at h
    rw [← h]

lemma get_or_create_epoch (s : Collector) (tid : Nat) (r : Nat × Collector)
    (h : s.get_or_create_participant tid = some r) :
    r.2.global_epoch = s.global_epoch := by
  rw [Collector.get_or_create_participant] at h
  rcases hlk : s.tcache.lookup tid with _ | idx
  · rw [hlk, Option.map_eq_some'] at h
    obtain ⟨a, ha, hfa⟩ := h
    rw [← hfa]
    exact allocate_epoch s a ha
  · rw [hlk, Option.some_inj] at h
    rw [← h]

lemma pin_epoch (s : Collector) (tid : Nat) (r : Nat × Collector)
    (h : s.pin tid = some r) :
    r.2.global_epoch = s.global_epoch ∨
    r.2.global_epoch = (s.global_epoch + 1) % U64MOD := by
  rw [Collector.pin, Option.map_eq_some'] at h
  obtain ⟨g, hg, hfg⟩ := h
  have hge := get_or_create_epoch s tid g hg
  rw [← hfg]
  by_cases hops : g.2.ops_since_gc % GC_FREQUENCY = 0
  · simp only [hops, if_true]
    have := tac_epoch
      { g.2 with
        participants := g.2.participants.set g.1
          { g.2.participants.getD g.1 Participant.init with
            epoch := g.2.global_epoch
            pin_count := (g.2.participants.getD g.1 Participant.init).pin_count + 1 }
        ops_since_gc := (g.2.ops_since_gc + 1) % U64MOD }
    rw [← hge]
    simpa using this
  · simp only [hops, if_false]
    left
    exact hge

lemma step_epoch (s s' : Collector) (op : Op) (h : stepOp s op = some s') :
    s'.global_epoch = s.global_epoch ∨
    s'.global_epoch = (s.global_epoch + 1) % U64MOD := by
  cases op with
  | pinOp tid =>
    rw [stepOp, Option.map_eq_some'] at h
    obtain ⟨r, hr, hr2⟩ := h
    rw [← hr2]
    exact pin_epoch s tid r hr
  | disposeOp idx =>
    rw [stepOp, Option.some_inj] at h
    rw [← h]
    left; rfl
  | deferOp rid =>
    rw [stepOp, Option.some_inj] at h
    rw [← h]
    left; rfl
  | advanceOp =>
    rw [stepOp, Option.some_inj] at h
    rw [← h]
    exact try_advance_epoch s
  | collectOp =>
    rw [stepOp, Option.some_inj] at h
    rw [← h]
    exact tac_epoch s

lemma step_mono (s s' : Collector) (op : Op) (h : stepOp s op = some s') :
    s'.global_epoch ≤ s.global_epoch + 1 ∧
    (s.global_epoch + 1 < U64MOD → s.global_epoch ≤ s'.global_epoch) := by
  rcases step_epoch s s' op h with he | he
  · rw [he]; exact ⟨Nat.le_succ _, fun _ => le_refl _⟩
  · rw [he]
    refine ⟨le_trans (Nat.mod_le _ _) (le_refl _), ?_⟩
    intro hlt
    rw [Nat.mod_eq_of_lt hlt]
    omega

lemma runOps_bound : ∀ (ops : List Op) (s s' : Collector), runOps s ops = some s' →
    s'.global_epoch ≤ s.global_epoch + ops.length ∧
    (s.global_epoch + ops.length < U64MOD → s.global_epoch ≤ s'.global_epoch) := by
  intro ops
  induction ops with
  | nil =>
    intro s s' h
    rw [runOps, Option.some_inj] at h
    subst h
    simp
  | cons op rest ih =>
    intro s s' h
    rw [runOps] at h
    rcases hstep : stepOp s op with _ | sm
    · rw [hstep] at h; cases h
    · rw [hstep, Option.some_bind] at h
      obtain ⟨hb1, hb2⟩ := ih sm s' h
      obtain ⟨hs1, hs2⟩ := step_mono s sm op hstep
      constructor
      · rw [List.length_cons]
        omega
      · intro hlt
        rw [List.length_cons] at hlt
        exact le_trans (hs2 (by omega)) (hb2 (by omega))

/-- C5: every collector operation either leaves the global epoch unchanged
or performs the sole transition `e → e + 1` (as a wrapping `u64`); guard
disposal and `defer` never change it; consequently the epoch is
non-decreasing along every panic-free execution from a fresh collector
(shorter than `2 ^ 64` steps, the u64 wrap horizon the spec declares
unreachable). -/
theorem C5_global_epoch_state_machine :
    (∀ (s s' : Collector) (op : Op), stepOp s op = some s' →
      s'.global_epoch = s.global_epoch ∨
      s'.global_epoch = (s.global_epoch + 1) % U64MOD) ∧
    (∀ (s : Collector) (idx rid : Nat),
      (s.dispose idx).global_epoch = s.global_epoch ∧
      (s.defer rid).global_epoch = s.global_epoch) ∧
    (∀ (ops1 ops2 : List Op) (s1 s2 : Collector),
      runOps Collector.new ops1 = some s1 → runOps s1 ops2 = some s2 →
      ops1.length + ops2.length < U64MOD →
      s1.global_epoch ≤ s2.global_epoch) := by
  refine ⟨fun s s' op h => step_epoch s s' op h,
    fun s idx rid => ⟨rfl, rfl⟩, ?_⟩
  intro ops1 ops2 s1 s2 h1 h2 hlen
  have hb1 := (runOps_bound ops1 Collector.new s1 h1).1
  have hnew : Collector.new.global_epoch = 0 := rfl
  rw [hnew] at hb1
  exact (runOps_bound ops2 s1 s2 h2).2 (by omega)

/-- Witness for C5: one `try_advance` step from a fresh collector obeys the
sole-transition shape, and along the two-step execution
`advance; advance` the epoch is non-decreasing. -/
theorem C5_global_epoch_state_machine_witness :
    ((Collector.new.try_advance).2.global_epoch = Collector.new.global_epoch ∨
      (Collector.new.try_advance).2.global_epoch
        = (Collector.new.global_epoch + 1) % U64MOD) ∧
    ({ Collector.new with global_epoch := 1 } : Collector).global_epoch
      ≤ ({ Collector.new with global_epoch := 2 } : Collector).global_epoch :=
  ⟨C5_global_epoch_state_machine.1 Collector.new _ Op.advanceOp rfl,
   C5_global_epoch_state_machine.2.2 [Op.advanceOp] [Op.advanceOp] _ _
     (by decide) (by decide) (by norm_num [U64MOD])⟩

end Nexus
